import Mathlib

/-!
Shallow embedding of the karcc library (src/karcc/src/lib.rs): fixed-width
numeric types backed by lists of single bits, with bit-serial ripple-carry
addition and ripple-borrow subtraction on the 8-bit unsigned type, native
delegation for the other operations, and conversions to and from native
machine values.  Native machine integers are modelled as `Nat`/`Int` with
explicit reduction modulo `2 ^ W`; operations that panic in the source
(division by zero, overflow of an unchecked operation, shift past the width)
are modelled as `Except` failures carrying the panic kind.
-/

/-- A single bit (source: `enum Bit { Zero, One }`, lib.rs:43). -/
inductive Bit where
  | Zero : Bit
  | One : Bit
deriving DecidableEq, Repr

/-- Source `impl From<Bit> for u8` (lib.rs:48): Zero to 0, One to 1. -/
def Bit.toNat : Bit → Nat
  | Bit.Zero => 0
  | Bit.One => 1

/-- Source `Bit::and` truth table (lib.rs:135). -/
def Bit.and : Bit → Bit → Bit
  | Bit.Zero, Bit.Zero => Bit.Zero
  | Bit.Zero, Bit.One => Bit.Zero
  | Bit.One, Bit.Zero => Bit.Zero
  | Bit.One, Bit.One => Bit.One

/-- Source `Bit::or` truth table (lib.rs:125). -/
def Bit.or : Bit → Bit → Bit
  | Bit.Zero, Bit.Zero => Bit.Zero
  | Bit.Zero, Bit.One => Bit.One
  | Bit.One, Bit.Zero => Bit.One
  | Bit.One, Bit.One => Bit.One

/-- Source `Bit::xor` truth table (lib.rs:145). -/
def Bit.xor : Bit → Bit → Bit
  | Bit.Zero, Bit.Zero => Bit.Zero
  | Bit.Zero, Bit.One => Bit.One
  | Bit.One, Bit.Zero => Bit.One
  | Bit.One, Bit.One => Bit.Zero

/-- Source `impl Not for Bit` (lib.rs:206). -/
def Bit.not : Bit → Bit
  | Bit.Zero => Bit.One
  | Bit.One => Bit.Zero

/-- Little-endian value of a bit list: `Σ bit_i · 2^i` with index 0 the LSB.
This is the value reconstructed by the source's `result |= 1 << i` folds
(e.g. `impl From<N8> for u8`, lib.rs:867): the or-ed summands have disjoint
bits, so the fold computes exactly this sum. -/
def bits_val : List Bit → Nat
  | [] => 0
  | b :: rest => b.toNat + 2 * bits_val rest

/-- Bit list of a native value: bit `i` is `(value & (1 << i)) != 0`, i.e.
`testBit`, as in `impl From<u8> for N8` (lib.rs:853) and its 16/32/64-bit
and signed/float counterparts. -/
def nat_to_bits (v w : Nat) : List Bit :=
  (List.range w).map fun i => if v.testBit i then Bit.One else Bit.Zero

/-- Source `full_adder` (lib.rs:826): `sum = a ^ b ^ carry`,
`new_carry = (a & b) | (a & carry) | (b & carry)`. -/
def full_adder (a b carry : Bit) : Bit × Bit :=
  (Bit.xor (Bit.xor a b) carry,
   Bit.or (Bit.or (Bit.and a b) (Bit.and a carry)) (Bit.and b carry))

/-- Source `full_subtractor` (lib.rs:954): `diff = a ^ b ^ borrow`,
`new_borrow = (b & !a) | (borrow & !(a ^ b))`. -/
def full_subtractor (a b borrow : Bit) : Bit × Bit :=
  (Bit.xor (Bit.xor a b) borrow,
   Bit.or (Bit.and b (Bit.not a)) (Bit.and borrow (Bit.not (Bit.xor a b))))

/-- The ripple-carry loop of `impl Add for N8` (lib.rs:832): positions are
processed from index 0 upward, the carry out of the last position is
discarded. -/
def ripple_add : Bit → List Bit → List Bit → List Bit
  | _, [], _ => []
  | _, _ :: _, [] => []
  | c, a :: as, b :: bs =>
    let r := full_adder a b c
    r.1 :: ripple_add r.2 as bs

/-- The ripple-borrow loop of `impl Sub for N8` (lib.rs:960): positions are
processed from index 0 upward, the borrow out of the last position is
discarded. -/
def ripple_sub : Bit → List Bit → List Bit → List Bit
  | _, [], _ => []
  | _, _ :: _, [] => []
  | c, a :: as, b :: bs =>
    let r := full_subtractor a b c
    r.1 :: ripple_sub r.2 as bs

/-- Panic kinds of the native operations the source delegates to: Rust's
`a / b` and `a % b` panic on a zero divisor, unchecked `a * b` panics on
overflow, and `a << k` / `a >> k` panic when `k` reaches the width. -/
inductive Fault where
  | DivisionByZero : Fault
  | Overflow : Fault
  | ShiftOverflow : Fault
deriving DecidableEq, Repr

/-- Unsigned 8-bit integer (source: `struct N8 { bits: [Bit; 8] }`,
lib.rs:752). -/
structure N8 where
  bits : List Bit
deriving DecidableEq, Repr

/-- Source `impl From<u8> for N8` (lib.rs:853). -/
def N8.from_u8 (v : Nat) : N8 :=
  ⟨nat_to_bits v 8⟩

/-- Source `impl From<N8> for u8` (lib.rs:867). -/
def N8.to_u8 (x : N8) : Nat :=
  bits_val x.bits

/-- Source `impl Add for N8` (lib.rs:832): ripple-carry with initial carry Zero. -/
def N8.add (x y : N8) : N8 :=
  ⟨ripple_add Bit.Zero x.bits y.bits⟩

/-- Source `impl Sub for N8` (lib.rs:960): ripple-borrow with initial borrow Zero. -/
def N8.sub (x y : N8) : N8 :=
  ⟨ripple_sub Bit.Zero x.bits y.bits⟩

/-- Source `impl Mul for N8` (lib.rs:993): the unchecked native product
`u8::from(self) * u8::from(other)`, which panics on overflow. -/
def N8.mul (x y : N8) : Except Fault N8 :=
  if 256 ≤ x.to_u8 * y.to_u8 then Except.error Fault.Overflow
  else Except.ok (N8.from_u8 (x.to_u8 * y.to_u8))

/-- Source `impl Div for N8` (lib.rs:1001): native `u8` division, which panics on a
zero divisor. -/
def N8.div (x y : N8) : Except Fault N8 :=
  if y.to_u8 = 0 then Except.error Fault.DivisionByZero
  else Except.ok (N8.from_u8 (x.to_u8 / y.to_u8))

/-- Source `impl Shl<u8> for N8` (lib.rs:797): `(u8::from(self) << shift).into()`;
the native shift panics when the amount reaches the width, otherwise the
shifted value is truncated to 8 bits. -/
def N8.shl (x : N8) (shift : Nat) : Except Fault N8 :=
  if 8 ≤ shift then Except.error Fault.ShiftOverflow
  else Except.ok (N8.from_u8 ((x.to_u8 <<< shift) % 256))

/-- Source `impl Shr<u8> for N8` (lib.rs:805): `(u8::from(self) >> shift).into()`. -/
def N8.shr (x : N8) (shift : Nat) : Except Fault N8 :=
  if 8 ≤ shift then Except.error Fault.ShiftOverflow
  else Except.ok (N8.from_u8 (x.to_u8 >>> shift))

/-- Source `u8::rotate_left` as used by `BitwiseRotate for N8` (lib.rs:922): the
native rotate reduces the amount modulo 8 and moves bits circularly. -/
def rotl8 (v n : Nat) : Nat :=
  ((v <<< (n % 8)) ||| (v >>> (8 - n % 8))) % 256

/-- Source `u8::rotate_right` as used by `BitwiseRotate for N8` (lib.rs:927). -/
def rotr8 (v n : Nat) : Nat :=
  ((v >>> (n % 8)) ||| (v <<< (8 - n % 8))) % 256

/-- Source `BitwiseRotate::rotate_left` for N8 (lib.rs:922): round-trips through
the native `u8` and its `rotate_left`. -/
def N8.rotate_left (x : N8) (n : Nat) : N8 :=
  N8.from_u8 (rotl8 x.to_u8 n)

/-- Source `BitwiseRotate::rotate_right` for N8 (lib.rs:927). -/
def N8.rotate_right (x : N8) (n : Nat) : N8 :=
  N8.from_u8 (rotr8 x.to_u8 n)

/-- The loop body of `impl FromStr for N8` (lib.rs:942): the reversed
characters are written into the bit array from index 0; any character other
than `'0'` or `'1'` aborts with the parse error (`Err(())` in the source). -/
def set_bits_from_chars : List Bit → Nat → List Char → Except Unit (List Bit)
  | bits, _, [] => Except.ok bits
  | bits, i, c :: cs =>
    if c = '0' then set_bits_from_chars (bits.set i Bit.Zero) (i + 1) cs
    else if c = '1' then set_bits_from_chars (bits.set i Bit.One) (i + 1) cs
    else Except.error ()

/-- Source `impl FromStr for N8` (lib.rs:934): strings longer than 8 characters are
rejected, otherwise the reversed digits fill the bits from the LSB and the
remaining high-order bits stay Zero. -/
def N8.from_str (s : List Char) : Except Unit N8 :=
  if 8 < s.length then Except.error ()
  else
    match set_bits_from_chars (List.replicate 8 Bit.Zero) 0 s.reverse with
    | Except.ok bits => Except.ok ⟨bits⟩
    | Except.error e => Except.error e

/-- Unsigned 16-bit integer (lib.rs:1019). -/
structure N16 where
  bits : List Bit
deriving DecidableEq, Repr

/-- Source `impl From<u16> for N16` (lib.rs:1023). -/
def N16.from_u16 (v : Nat) : N16 :=
  ⟨nat_to_bits v 16⟩

/-- Source `impl From<N16> for u16` (lib.rs:1037). -/
def N16.to_u16 (x : N16) : Nat :=
  bits_val x.bits

/-- Unsigned 32-bit integer (lib.rs:1171). -/
structure N32 where
  bits : List Bit
deriving DecidableEq, Repr

/-- Source `impl From<u32> for N32` (lib.rs:1203). -/
def N32.from_u32 (v : Nat) : N32 :=
  ⟨nat_to_bits v 32⟩

/-- Source `impl From<N32> for u32` (lib.rs:1217). -/
def N32.to_u32 (x : N32) : Nat :=
  bits_val x.bits

/-- Source `impl Mul for N16` (lib.rs:1077): the operands are widened to `u32`
before multiplying, and the result is a 32-bit `N32`, not an `N16`; the
product of two 16-bit values never overflows 32 bits. -/
def N16.mul (x y : N16) : N32 :=
  N32.from_u32 (x.to_u16 * y.to_u16)

/-- Source `impl Div for N16` (lib.rs:1113): native `u16` division. -/
def N16.div (x y : N16) : Except Fault N16 :=
  if y.to_u16 = 0 then Except.error Fault.DivisionByZero
  else Except.ok (N16.from_u16 (x.to_u16 / y.to_u16))

/-- Source `impl Mul for N32` (lib.rs:1255): `u32::wrapping_mul`. -/
def N32.mul (x y : N32) : N32 :=
  N32.from_u32 ((x.to_u32 * y.to_u32) % 2 ^ 32)

/-- Source `impl Div for N32` (lib.rs:1269): native `u32` division. -/
def N32.div (x y : N32) : Except Fault N32 :=
  if y.to_u32 = 0 then Except.error Fault.DivisionByZero
  else Except.ok (N32.from_u32 (x.to_u32 / y.to_u32))

/-- Source `impl Rem for N32` (lib.rs:1283): native `u32` remainder. -/
def N32.rem (x y : N32) : Except Fault N32 :=
  if y.to_u32 = 0 then Except.error Fault.DivisionByZero
  else Except.ok (N32.from_u32 (x.to_u32 % y.to_u32))

/-- Unsigned 64-bit integer (lib.rs:1301). -/
structure N64 where
  bits : List Bit
deriving DecidableEq, Repr

/-- Source `impl From<u64> for N64` (lib.rs:1305). -/
def N64.from_u64 (v : Nat) : N64 :=
  ⟨nat_to_bits v 64⟩

/-- Source `impl From<N64> for u64` (lib.rs:1319). -/
def N64.to_u64 (x : N64) : Nat :=
  bits_val x.bits

/-- Source `impl Mul for N64` (lib.rs:1345): `u64::wrapping_mul`. -/
def N64.mul (x y : N64) : N64 :=
  N64.from_u64 ((x.to_u64 * y.to_u64) % 2 ^ 64)

/-- Source `impl Div for N64` (lib.rs:1353): native `u64` division. -/
def N64.div (x y : N64) : Except Fault N64 :=
  if y.to_u64 = 0 then Except.error Fault.DivisionByZero
  else Except.ok (N64.from_u64 (x.to_u64 / y.to_u64))

/-- Signed 8-bit integer (lib.rs:1383). -/
structure Z8 where
  bits : List Bit
deriving DecidableEq, Repr

/-- Source `impl From<i8> for Z8` (lib.rs:1387): bit `i` is `(value & (1 << i)) != 0`
on the `i8`, i.e. bit `i` of the value's two's-complement byte
`v mod 2^8`. -/
def Z8.from_i8 (v : Int) : Z8 :=
  ⟨nat_to_bits (v % 2 ^ 8).toNat 8⟩

/-- Source `impl From<Z8> for i8` (lib.rs:1399): the bits are or-ed back into an
`i8`, producing the signed value whose two's-complement byte is the bit
pattern: the pattern itself below `2^7`, pattern minus `2^8` otherwise. -/
def Z8.to_i8 (x : Z8) : Int :=
  if bits_val x.bits < 2 ^ 7 then (bits_val x.bits : Int)
  else (bits_val x.bits : Int) - 2 ^ 8

/-- Source `impl Div for Z8` (lib.rs:1432): `i8::wrapping_div`, truncating toward
zero, wrapping `MIN / -1`, panicking on a zero divisor. -/
def Z8.div (x y : Z8) : Except Fault Z8 :=
  if y.to_i8 = 0 then Except.error Fault.DivisionByZero
  else Except.ok (Z8.from_i8 (Int.tdiv x.to_i8 y.to_i8))

/-- Source `impl Rem for Z8` (lib.rs:1439): `i8::wrapping_rem`, remainder with the
sign of the dividend, panicking on a zero divisor. -/
def Z8.rem (x y : Z8) : Except Fault Z8 :=
  if y.to_i8 = 0 then Except.error Fault.DivisionByZero
  else Except.ok (Z8.from_i8 (Int.tmod x.to_i8 y.to_i8))

/-- Signed 16-bit integer (lib.rs:1463). -/
structure Z16 where
  bits : List Bit
deriving DecidableEq, Repr

/-- Source `impl From<i16> for Z16` (lib.rs:1467). -/
def Z16.from_i16 (v : Int) : Z16 :=
  ⟨nat_to_bits (v % 2 ^ 16).toNat 16⟩

/-- Source `impl From<Z16> for i16` (lib.rs:1479). -/
def Z16.to_i16 (x : Z16) : Int :=
  if bits_val x.bits < 2 ^ 15 then (bits_val x.bits : Int)
  else (bits_val x.bits : Int) - 2 ^ 16

/-- Source `impl Div for Z16` (lib.rs:1512): `i16::wrapping_div`. -/
def Z16.div (x y : Z16) : Except Fault Z16 :=
  if y.to_i16 = 0 then Except.error Fault.DivisionByZero
  else Except.ok (Z16.from_i16 (Int.tdiv x.to_i16 y.to_i16))

/-- Source `impl Rem for Z16` (lib.rs:1519): `i16::wrapping_rem`. -/
def Z16.rem (x y : Z16) : Except Fault Z16 :=
  if y.to_i16 = 0 then Except.error Fault.DivisionByZero
  else Except.ok (Z16.from_i16 (Int.tmod x.to_i16 y.to_i16))

/-- Signed 32-bit integer (lib.rs:1543). -/
structure Z32 where
  bits : List Bit
deriving DecidableEq, Repr

/-- Source `impl From<i32> for Z32` (lib.rs:1547). -/
def Z32.from_i32 (v : Int) : Z32 :=
  ⟨nat_to_bits (v % 2 ^ 32).toNat 32⟩

/-- Source `impl From<Z32> for i32` (lib.rs:1559). -/
def Z32.to_i32 (x : Z32) : Int :=
  if bits_val x.bits < 2 ^ 31 then (bits_val x.bits : Int)
  else (bits_val x.bits : Int) - 2 ^ 32

/-- Source `impl Div for Z32` (lib.rs:1592): `i32::wrapping_div`. -/
def Z32.div (x y : Z32) : Except Fault Z32 :=
  if y.to_i32 = 0 then Except.error Fault.DivisionByZero
  else Except.ok (Z32.from_i32 (Int.tdiv x.to_i32 y.to_i32))

/-- Source `impl Rem for Z32` (lib.rs:1599): `i32::wrapping_rem`. -/
def Z32.rem (x y : Z32) : Except Fault Z32 :=
  if y.to_i32 = 0 then Except.error Fault.DivisionByZero
  else Except.ok (Z32.from_i32 (Int.tmod x.to_i32 y.to_i32))

/-- Signed 64-bit integer (lib.rs:1623). -/
structure Z64 where
  bits : List Bit
deriving DecidableEq, Repr

/-- Source `impl From<i64> for Z64` (lib.rs:1627). -/
def Z64.from_i64 (v : Int) : Z64 :=
  ⟨nat_to_bits (v % 2 ^ 64).toNat 64⟩

/-- Source `impl From<Z64> for i64` (lib.rs:1639). -/
def Z64.to_i64 (x : Z64) : Int :=
  if bits_val x.bits < 2 ^ 63 then (bits_val x.bits : Int)
  else (bits_val x.bits : Int) - 2 ^ 64

/-- Source `impl Div for Z64` (lib.rs:1672): `i64::wrapping_div`. -/
def Z64.div (x y : Z64) : Except Fault Z64 :=
  if y.to_i64 = 0 then Except.error Fault.DivisionByZero
  else Except.ok (Z64.from_i64 (Int.tdiv x.to_i64 y.to_i64))

/-- Source `impl Rem for Z64` (lib.rs:1679): `i64::wrapping_rem`. -/
def Z64.rem (x y : Z64) : Except Fault Z64 :=
  if y.to_i64 = 0 then Except.error Fault.DivisionByZero
  else Except.ok (Z64.from_i64 (Int.tmod x.to_i64 y.to_i64))

/-- A native `f32`, modelled by its IEEE-754 binary32 bit pattern:
`f32::to_bits` / `f32::from_bits` are raw transmutations, so the pattern is
the whole identity of the value (including NaN payload, signed zero,
infinities and subnormals). -/
structure F32 where
  pattern : Nat
deriving DecidableEq, Repr

/-- A native `f64`, modelled by its IEEE-754 binary64 bit pattern. -/
structure F64 where
  pattern : Nat
deriving DecidableEq, Repr

/-- Float of 32 bits (lib.rs:1703). -/
structure R32 where
  bits : List Bit
deriving DecidableEq, Repr

/-- Source `impl From<f32> for R32` (lib.rs:1707): bit `i` is bit `i` of
`value.to_bits()`. -/
def R32.from_f32 (v : F32) : R32 :=
  ⟨nat_to_bits v.pattern 32⟩

/-- Source `impl From<R32> for f32` (lib.rs:1720): the bits are or-ed back into a
`u32` and reinterpreted with `f32::from_bits`. -/
def R32.to_f32 (x : R32) : F32 :=
  ⟨bits_val x.bits⟩

/-- Float of 64 bits (lib.rs:1777). -/
structure R64 where
  bits : List Bit
deriving DecidableEq, Repr

/-- Source `impl From<f64> for R64` (lib.rs:1781). -/
def R64.from_f64 (v : F64) : R64 :=
  ⟨nat_to_bits v.pattern 64⟩

/-- Source `impl From<R64> for f64` (lib.rs:1794). -/
def R64.to_f64 (x : R64) : F64 :=
  ⟨bits_val x.bits⟩

/-- Element test of the derived `PartialEq` (`#[derive(PartialEq)]` on R32,
lib.rs:1702, and R64, lib.rs:1776): single bits compare by variant. -/
def Bit.beq : Bit → Bit → Bool
  | Bit.Zero, Bit.Zero => true
  | Bit.One, Bit.One => true
  | _, _ => false

/-- The derived `PartialEq` on a bit array: element-wise comparison. -/
def bits_beq : List Bit → List Bit → Bool
  | [], [] => true
  | a :: as, b :: bs => Bit.beq a b && bits_beq as bs
  | _, _ => false

/-- Source `R32::eq`, the derived structural `PartialEq` (lib.rs:1702). -/
def R32.beq (x y : R32) : Bool :=
  bits_beq x.bits y.bits

/-- Source `R64::eq`, the derived structural `PartialEq` (lib.rs:1776). -/
def R64.beq (x y : R64) : Bool :=
  bits_beq x.bits y.bits

/-- Indexing `self.bits[i]` on a bit array (in the source every access is
within bounds; out-of-range defaults to Zero). -/
def bitAt (l : List Bit) (i : Nat) : Bit :=
  l.getD i Bit.Zero

/-- A byte container (lib.rs:244). -/
structure Byte where
  bits : List Bit
deriving DecidableEq, Repr

/-- Source `impl Shl<u8> for Byte` (lib.rs:366): result starts all Zero; a shift of
8 or more returns it unchanged; otherwise `result.bits[i] =
self.bits[i - shift]` for `i` in `shift..8`. -/
def Byte.shl (x : Byte) (shift : Nat) : Byte :=
  if 8 ≤ shift then ⟨List.replicate 8 Bit.Zero⟩
  else ⟨(List.range 8).map fun i =>
    if shift ≤ i then bitAt x.bits (i - shift) else Bit.Zero⟩

/-- Source `impl Shr<u8> for Byte` (lib.rs:382): result starts all Zero; a shift of
8 or more returns it unchanged; otherwise `result.bits[i] =
self.bits[i + shift]` for `i` in `0..(8 - shift)`. -/
def Byte.shr (x : Byte) (shift : Nat) : Byte :=
  if 8 ≤ shift then ⟨List.replicate 8 Bit.Zero⟩
  else ⟨(List.range 8).map fun i =>
    if i < 8 - shift then bitAt x.bits (i + shift) else Bit.Zero⟩

/-- Source `Byte::rotate_left` (lib.rs:400): `n` is reduced modulo 8 and
`result[(i + n) % 8] = self.bits[i]` for every `i`. -/
def Byte.rotate_left (x : Byte) (n : Nat) : Byte :=
  ⟨(List.range 8).foldl
    (fun acc i => acc.set ((i + n % 8) % 8) (bitAt x.bits i))
    (List.replicate 8 Bit.Zero)⟩

/-- Source `Byte::rotate_right` (lib.rs:410): `n` is reduced modulo 8 and
`result[(i + 8 - n) % 8] = self.bits[i]` for every `i`. -/
def Byte.rotate_right (x : Byte) (n : Nat) : Byte :=
  ⟨(List.range 8).foldl
    (fun acc i => acc.set ((i + 8 - n % 8) % 8) (bitAt x.bits i))
    (List.replicate 8 Bit.Zero)⟩

/-- Bit denoted by a valid digit character (only applied to `'0'`/`'1'`). -/
def digit_bit (c : Char) : Bit :=
  if c = '1' then Bit.One else Bit.Zero

/-- Numeric value of a binary-digit string, most-significant character
first: `"101"` denotes 5. -/
def str_bin_val (s : List Char) : Nat :=
  List.foldl (fun x c => 2 * x + (digit_bit c).toNat) 0 s

/-- Successive in-place writes at consecutive indices, the effect of the
parse loop once every character is known to be a valid digit. -/
def write_seq : List Bit → Nat → List Bit → List Bit
  | bits, _, [] => bits
  | bits, i, d :: ds => write_seq (bits.set i d) (i + 1) ds

-- ---------------------------------------------------------------------------
-- Theorems
-- ---------------------------------------------------------------------------

theorem Bit.toNat_le (b : Bit) : b.toNat ≤ 1 := by
  cases b <;> decide

theorem bits_val_lt (l : List Bit) : bits_val l < 2 ^ l.length := by
  induction l with
  | nil => decide
  | cons b l ih =>
    have hb := Bit.toNat_le b
    simp only [bits_val, List.length_cons, pow_succ]
    omega

/-- Splitting a modulus `2 * t`: adding a bit `s` below a doubled value. -/
theorem two_mul_mod (s y t : Nat) (hs : s ≤ 1) (ht : 0 < t) :
    (s + 2 * y) % (2 * t) = s + 2 * (y % t) := by
  obtain ⟨q, r, hr, rfl⟩ : ∃ q r, r < t ∧ y = t * q + r :=
    ⟨y / t, y % t, Nat.mod_lt y ht, (Nat.div_add_mod y t).symm⟩
  have h2 : (t * q + r) % t = r := by
    rw [Nat.add_comm, Nat.add_mul_mod_self_left]
    exact Nat.mod_eq_of_lt hr
  have h4 : s + 2 * (t * q + r) = (s + 2 * r) + (2 * t) * q := by ring
  rw [h2, h4, Nat.add_mul_mod_self_left]
  exact Nat.mod_eq_of_lt (by omega)

/-- The full-adder identity: sum and carry-out encode `a + b + carry`. -/
theorem full_adder_val (a b c : Bit) :
    (full_adder a b c).1.toNat + 2 * (full_adder a b c).2.toNat
      = a.toNat + b.toNat + c.toNat := by
  cases a <;> cases b <;> cases c <;> decide

/-- The full-subtractor identity: difference and borrow-out encode
`a - b - borrow`. -/
theorem full_subtractor_val (a b c : Bit) :
    a.toNat + 2 * (full_subtractor a b c).2.toNat
      = (full_subtractor a b c).1.toNat + b.toNat + c.toNat := by
  cases a <;> cases b <;> cases c <;> decide

/-- Value of the ripple-carry loop: addition modulo `2 ^ width`, the final
carry discarded. -/
theorem ripple_add_val (as : List Bit) :
    ∀ (bs : List Bit) (c : Bit), as.length = bs.length →
      bits_val (ripple_add c as bs)
        = (bits_val as + bits_val bs + c.toNat) % 2 ^ as.length := by
  induction as with
  | nil =>
    intro bs c h
    cases bs with
    | nil => simp [ripple_add, bits_val, Nat.mod_one]
    | cons b bs => simp at h
  | cons a as ih =>
    intro bs c h
    cases bs with
    | nil => simp at h
    | cons b bs =>
      have h' : as.length = bs.length := by simpa using h
      have hfa := full_adder_val a b c
      have ht : 0 < 2 ^ as.length := Nat.pos_pow_of_pos _ (by omega)
      have hs : (full_adder a b c).1.toNat ≤ 1 := Bit.toNat_le _
      simp only [ripple_add, bits_val, List.length_cons, ih bs _ h']
      rw [pow_succ, Nat.mul_comm (2 ^ as.length) 2,
        ← two_mul_mod _ _ _ hs ht]
      congr 1
      omega

/-- Value of the ripple-borrow loop: subtraction modulo `2 ^ width`, the
final borrow discarded. -/
theorem ripple_sub_val (as : List Bit) :
    ∀ (bs : List Bit) (c : Bit), as.length = bs.length →
      bits_val (ripple_sub c as bs)
        = (2 ^ as.length + bits_val as - bits_val bs - c.toNat)
            % 2 ^ as.length := by
  induction as with
  | nil =>
    intro bs c h
    cases bs with
    | nil => simp [ripple_sub, bits_val, Nat.mod_one]
    | cons b bs => simp at h
  | cons a as ih =>
    intro bs c h
    cases bs with
    | nil => simp at h
    | cons b bs =>
      have h' : as.length = bs.length := by simpa using h
      have hfs := full_subtractor_val a b c
      have ht : 0 < 2 ^ as.length := Nat.pos_pow_of_pos _ (by omega)
      have hd : (full_subtractor a b c).1.toNat ≤ 1 := Bit.toNat_le _
      have hB : bits_val bs < 2 ^ as.length := by
        have := bits_val_lt bs
        rwa [← h'] at this
      have ha := Bit.toNat_le a
      have hb := Bit.toNat_le b
      have hc := Bit.toNat_le c
      simp only [ripple_sub, bits_val, List.length_cons, ih bs _ h']
      rw [pow_succ, Nat.mul_comm (2 ^ as.length) 2,
        ← two_mul_mod _ _ _ hd ht]
      congr 1
      omega

theorem length_nat_to_bits (v w : Nat) : (nat_to_bits v w).length = w := by
  simp [nat_to_bits]

theorem bits_val_nat_to_bits (w : Nat) :
    ∀ v : Nat, bits_val (nat_to_bits v w) = v % 2 ^ w := by
  induction w with
  | zero => intro v; simp [nat_to_bits, bits_val, Nat.mod_one]
  | succ w ih =>
    intro v
    have hhead :
        (if v.testBit 0 then Bit.One else Bit.Zero).toNat = v % 2 := by
      rcases Nat.mod_two_eq_zero_or_one v with h | h <;>
        simp [Nat.testBit_zero, h, Bit.toNat]
    have htail :
        List.map (fun i => if v.testBit i then Bit.One else Bit.Zero)
            (List.map Nat.succ (List.range w))
          = nat_to_bits (v / 2) w := by
      rw [List.map_map, nat_to_bits]
      refine List.map_congr_left ?_
      intro i _
      simp [Function.comp, Nat.testBit_succ]
    rw [nat_to_bits, List.range_succ_eq_map, List.map_cons, htail]
    simp only [bits_val, hhead, ih (v / 2)]
    have hs : v % 2 ≤ 1 := by omega
    have ht : 0 < 2 ^ w := Nat.pos_pow_of_pos _ (by omega)
    rw [pow_succ, Nat.mul_comm (2 ^ w) 2, ← two_mul_mod _ _ _ hs ht]
    congr 1
    omega

theorem nat_to_bits_bits_val (l : List Bit) :
    nat_to_bits (bits_val l) l.length = l := by
  induction l with
  | nil => rfl
  | cons b l ih =>
    have hb := Bit.toNat_le b
    have hhead :
        (if (bits_val (b :: l)).testBit 0 then Bit.One else Bit.Zero) = b := by
      cases b <;>
        simp [Nat.testBit_zero, bits_val, Bit.toNat, Nat.add_mul_mod_self_left]
    have hdiv : bits_val (b :: l) / 2 = bits_val l := by
      simp only [bits_val]
      omega
    have htail :
        List.map (fun i => if (bits_val (b :: l)).testBit i then Bit.One
            else Bit.Zero) (List.map Nat.succ (List.range l.length))
          = nat_to_bits (bits_val (b :: l) / 2) l.length := by
      rw [List.map_map, nat_to_bits]
      refine List.map_congr_left ?_
      intro i _
      simp [Function.comp, Nat.testBit_succ]
    rw [List.length_cons, nat_to_bits, List.range_succ_eq_map, List.map_cons,
      htail, hdiv]
    rw [show (nat_to_bits (bits_val l) l.length) = l from ih, hhead]

/-- C1: for all 8-bit values `a` and `b`, the ripple-carry `N8` addition
(`full_adder` from index 0 upward, final carry discarded) equals the native
wrapping addition `a.wrapping_add(b)`, i.e. `(a + b) % 2^8`. -/
theorem n8_add_ripple_wraps (a b : Nat) (ha : a < 256) (hb : b < 256) :
    (N8.add (N8.from_u8 a) (N8.from_u8 b)).to_u8 = (a + b) % 256 := by
  have hlen : (nat_to_bits a 8).length = (nat_to_bits b 8).length := by
    simp [length_nat_to_bits]
  simp only [N8.add, N8.from_u8, N8.to_u8]
  rw [ripple_add_val _ _ _ hlen, bits_val_nat_to_bits, bits_val_nat_to_bits,
    length_nat_to_bits]
  have h1 : a % 2 ^ 8 = a := Nat.mod_eq_of_lt ha
  have h2 : b % 2 ^ 8 = b := Nat.mod_eq_of_lt hb
  rw [h1, h2]
  simp [Bit.toNat]

/-- C1 witness: `255 + 1 == 0` for the ripple-carry adder. -/
theorem n8_add_ripple_wraps_witness :
    255 < 256 ∧ 1 < 256 ∧
      (N8.add (N8.from_u8 255) (N8.from_u8 1)).to_u8 = (255 + 1) % 256 :=
  ⟨by decide, by decide, n8_add_ripple_wraps 255 1 (by decide) (by decide)⟩

/-- C2: for all 8-bit values `a` and `b`, the ripple-borrow `N8` subtraction
(final borrow discarded) equals the native wrapping subtraction
`a.wrapping_sub(b)`, i.e. `(2^8 + a - b) % 2^8`. -/
theorem n8_sub_ripple_wraps (a b : Nat) (ha : a < 256) (hb : b < 256) :
    (N8.sub (N8.from_u8 a) (N8.from_u8 b)).to_u8 = (256 + a - b) % 256 := by
  have hlen : (nat_to_bits a 8).length = (nat_to_bits b 8).length := by
    simp [length_nat_to_bits]
  simp only [N8.sub, N8.from_u8, N8.to_u8]
  rw [ripple_sub_val _ _ _ hlen, bits_val_nat_to_bits, bits_val_nat_to_bits,
    length_nat_to_bits]
  have h1 : a % 2 ^ 8 = a := Nat.mod_eq_of_lt ha
  have h2 : b % 2 ^ 8 = b := Nat.mod_eq_of_lt hb
  rw [h1, h2]
  simp [Bit.toNat]

/-- C2 witness: `0 - 1 == 255` for the ripple-borrow subtractor. -/
theorem n8_sub_ripple_wraps_witness :
    0 < 256 ∧ 1 < 256 ∧
      (N8.sub (N8.from_u8 0) (N8.from_u8 1)).to_u8 = (256 + 0 - 1) % 256 :=
  ⟨by decide, by decide, n8_sub_ripple_wraps 0 1 (by decide) (by decide)⟩

/-- C3: for every integer width, signed and unsigned, dividing any value by
the zero value — and taking the modulo by zero with every `Rem` the source
implements (N32, Z8, Z16, Z32, Z64) — fails with the DivisionByZero error. -/
theorem div_rem_by_zero_faults :
    (∀ a : N8, N8.div a (N8.from_u8 0) = Except.error Fault.DivisionByZero)
  ∧ (∀ a : N16, N16.div a (N16.from_u16 0) = Except.error Fault.DivisionByZero)
  ∧ (∀ a : N32, N32.div a (N32.from_u32 0) = Except.error Fault.DivisionByZero)
  ∧ (∀ a : N32, N32.rem a (N32.from_u32 0) = Except.error Fault.DivisionByZero)
  ∧ (∀ a : N64, N64.div a (N64.from_u64 0) = Except.error Fault.DivisionByZero)
  ∧ (∀ a : Z8, Z8.div a (Z8.from_i8 0) = Except.error Fault.DivisionByZero)
  ∧ (∀ a : Z8, Z8.rem a (Z8.from_i8 0) = Except.error Fault.DivisionByZero)
  ∧ (∀ a : Z16, Z16.div a (Z16.from_i16 0) = Except.error Fault.DivisionByZero)
  ∧ (∀ a : Z16, Z16.rem a (Z16.from_i16 0) = Except.error Fault.DivisionByZero)
  ∧ (∀ a : Z32, Z32.div a (Z32.from_i32 0) = Except.error Fault.DivisionByZero)
  ∧ (∀ a : Z32, Z32.rem a (Z32.from_i32 0) = Except.error Fault.DivisionByZero)
  ∧ (∀ a : Z64, Z64.div a (Z64.from_i64 0) = Except.error Fault.DivisionByZero)
  ∧ (∀ a : Z64, Z64.rem a (Z64.from_i64 0) = Except.error Fault.DivisionByZero) := by
  have hn8 : (N8.from_u8 0).to_u8 = 0 := by
    simp [N8.from_u8, N8.to_u8, bits_val_nat_to_bits]
  have hn16 : (N16.from_u16 0).to_u16 = 0 := by
    simp [N16.from_u16, N16.to_u16, bits_val_nat_to_bits]
  have hn32 : (N32.from_u32 0).to_u32 = 0 := by
    simp [N32.from_u32, N32.to_u32, bits_val_nat_to_bits]
  have hn64 : (N64.from_u64 0).to_u64 = 0 := by
    simp [N64.from_u64, N64.to_u64, bits_val_nat_to_bits]
  have hz8 : (Z8.from_i8 0).to_i8 = 0 := by
    simp [Z8.from_i8, Z8.to_i8, bits_val_nat_to_bits]
  have hz16 : (Z16.from_i16 0).to_i16 = 0 := by
    simp [Z16.from_i16, Z16.to_i16, bits_val_nat_to_bits]
  have hz32 : (Z32.from_i32 0).to_i32 = 0 := by
    simp [Z32.from_i32, Z32.to_i32, bits_val_nat_to_bits]
  have hz64 : (Z64.from_i64 0).to_i64 = 0 := by
    simp [Z64.from_i64, Z64.to_i64, bits_val_nat_to_bits]
  exact ⟨fun _ => by simp [N8.div, hn8], fun _ => by simp [N16.div, hn16],
    fun _ => by simp [N32.div, hn32], fun _ => by simp [N32.rem, hn32],
    fun _ => by simp [N64.div, hn64], fun _ => by simp [Z8.div, hz8],
    fun _ => by simp [Z8.rem, hz8], fun _ => by simp [Z16.div, hz16],
    fun _ => by simp [Z16.rem, hz16], fun _ => by simp [Z32.div, hz32],
    fun _ => by simp [Z32.rem, hz32], fun _ => by simp [Z64.div, hz64],
    fun _ => by simp [Z64.rem, hz64]⟩

/-- C6: converting a native value of the right width into the bit-vector
type and back returns it exactly, for every unsigned, signed and float
width. -/
theorem roundtrip_native_values :
    (∀ v : Nat, v < 2 ^ 8 → (N8.from_u8 v).to_u8 = v)
  ∧ (∀ v : Nat, v < 2 ^ 16 → (N16.from_u16 v).to_u16 = v)
  ∧ (∀ v : Nat, v < 2 ^ 32 → (N32.from_u32 v).to_u32 = v)
  ∧ (∀ v : Nat, v < 2 ^ 64 → (N64.from_u64 v).to_u64 = v)
  ∧ (∀ v : Int, -(2 ^ 7) ≤ v → v < 2 ^ 7 → (Z8.from_i8 v).to_i8 = v)
  ∧ (∀ v : Int, -(2 ^ 15) ≤ v → v < 2 ^ 15 → (Z16.from_i16 v).to_i16 = v)
  ∧ (∀ v : Int, -(2 ^ 31) ≤ v → v < 2 ^ 31 → (Z32.from_i32 v).to_i32 = v)
  ∧ (∀ v : Int, -(2 ^ 63) ≤ v → v < 2 ^ 63 → (Z64.from_i64 v).to_i64 = v)
  ∧ (∀ v : F32, v.pattern < 2 ^ 32 → R32.to_f32 (R32.from_f32 v) = v)
  ∧ (∀ v : F64, v.pattern < 2 ^ 64 → R64.to_f64 (R64.from_f64 v) = v) := by
  refine ⟨?_, ?_, ?_, ?_, ?_, ?_, ?_, ?_, ?_, ?_⟩
  · intro v h
    simp only [N8.from_u8, N8.to_u8, bits_val_nat_to_bits]
    omega
  · intro v h
    simp only [N16.from_u16, N16.to_u16, bits_val_nat_to_bits]
    omega
  · intro v h
    simp only [N32.from_u32, N32.to_u32, bits_val_nat_to_bits]
    omega
  · intro v h
    simp only [N64.from_u64, N64.to_u64, bits_val_nat_to_bits]
    omega
  · intro v h1 h2
    simp only [Z8.from_i8, Z8.to_i8, bits_val_nat_to_bits]
    split_ifs with h <;> omega
  · intro v h1 h2
    simp only [Z16.from_i16, Z16.to_i16, bits_val_nat_to_bits]
    split_ifs with h <;> omega
  · intro v h1 h2
    simp only [Z32.from_i32, Z32.to_i32, bits_val_nat_to_bits]
    split_ifs with h <;> omega
  · intro v h1 h2
    simp only [Z64.from_i64, Z64.to_i64, bits_val_nat_to_bits]
    split_ifs with h <;> omega
  · intro v h
    obtain ⟨p⟩ := v
    simp only [R32.from_f32, R32.to_f32, bits_val_nat_to_bits, F32.mk.injEq]
    simp only at h
    omega
  · intro v h
    obtain ⟨p⟩ := v
    simp only [R64.from_f64, R64.to_f64, bits_val_nat_to_bits, F64.mk.injEq]
    simp only at h
    omega

/-- C6 witness: concrete round trips in every family. -/
theorem roundtrip_native_values_witness :
    ((200 : Nat) < 2 ^ 8 ∧ (N8.from_u8 200).to_u8 = 200)
  ∧ ((60000 : Nat) < 2 ^ 16 ∧ (N16.from_u16 60000).to_u16 = 60000)
  ∧ (-(2 ^ 7) ≤ (-7 : Int) ∧ (-7 : Int) < 2 ^ 7 ∧ (Z8.from_i8 (-7)).to_i8 = -7)
  ∧ ((F64.mk 4638387860618067575).pattern < 2 ^ 64 ∧
      R64.to_f64 (R64.from_f64 (F64.mk 4638387860618067575))
        = F64.mk 4638387860618067575) :=
  ⟨⟨by decide, roundtrip_native_values.1 200 (by decide)⟩,
   ⟨by decide, roundtrip_native_values.2.1 60000 (by decide)⟩,
   ⟨by decide, by decide,
     roundtrip_native_values.2.2.2.2.1 (-7) (by decide) (by decide)⟩,
   ⟨by decide, roundtrip_native_values.2.2.2.2.2.2.2.2.2 (F64.mk 4638387860618067575)
     (by decide)⟩⟩

/-- C7: for every native float — identified with its IEEE-754 bit pattern,
including every NaN payload, both zeros, the infinities and all subnormals —
the conversion into R32/R64 and back is bit-identical. -/
theorem float_roundtrip_bit_exact :
    (∀ v : F64, v.pattern < 2 ^ 64 → R64.to_f64 (R64.from_f64 v) = v)
  ∧ (∀ v : F32, v.pattern < 2 ^ 32 → R32.to_f32 (R32.from_f32 v) = v) := by
  constructor
  · intro v h
    obtain ⟨p⟩ := v
    simp only [R64.from_f64, R64.to_f64, bits_val_nat_to_bits, F64.mk.injEq]
    simp only at h
    omega
  · intro v h
    obtain ⟨p⟩ := v
    simp only [R32.from_f32, R32.to_f32, bits_val_nat_to_bits, F32.mk.injEq]
    simp only at h
    omega

/-- C7 witness: a quiet NaN with a payload, the negative zero, the positive
infinity and an ordinary decimal value all round-trip bit-identically. -/
theorem float_roundtrip_bit_exact_witness :
    ((F64.mk 0x7FF8000000000001).pattern < 2 ^ 64 ∧
      R64.to_f64 (R64.from_f64 (F64.mk 0x7FF8000000000001))
        = F64.mk 0x7FF8000000000001)
  ∧ ((F64.mk 0x8000000000000000).pattern < 2 ^ 64 ∧
      R64.to_f64 (R64.from_f64 (F64.mk 0x8000000000000000))
        = F64.mk 0x8000000000000000)
  ∧ ((F32.mk 0x7F800000).pattern < 2 ^ 32 ∧
      R32.to_f32 (R32.from_f32 (F32.mk 0x7F800000)) = F32.mk 0x7F800000) :=
  ⟨⟨by decide, float_roundtrip_bit_exact.1 (F64.mk 0x7FF8000000000001) (by decide)⟩,
   ⟨by decide, float_roundtrip_bit_exact.1 (F64.mk 0x8000000000000000) (by decide)⟩,
   ⟨by decide, float_roundtrip_bit_exact.2 (F32.mk 0x7F800000) (by decide)⟩⟩

theorem bit_beq_iff (a b : Bit) : Bit.beq a b = true ↔ a = b := by
  cases a <;> cases b <;> decide

theorem bits_beq_iff (as : List Bit) :
    ∀ bs : List Bit, bits_beq as bs = true ↔ as = bs := by
  induction as with
  | nil =>
    intro bs
    cases bs <;> simp [bits_beq]
  | cons a as ih =>
    intro bs
    cases bs with
    | nil => simp [bits_beq]
    | cons b bs => simp [bits_beq, bit_beq_iff, ih]

/-- C10: the derived equality on R32/R64 compares the stored bit patterns
structurally: it holds exactly when the bit lists coincide, so every value —
every NaN included — compares equal to itself, while the negative-zero and
positive-zero encodings compare unequal. -/
theorem float_eq_structural :
    (∀ x y : R64, R64.beq x y = true ↔ x.bits = y.bits)
  ∧ (∀ x y : R32, R32.beq x y = true ↔ x.bits = y.bits)
  ∧ (∀ v : F64, R64.beq (R64.from_f64 v) (R64.from_f64 v) = true)
  ∧ (∀ v : F32, R32.beq (R32.from_f32 v) (R32.from_f32 v) = true)
  ∧ R64.beq (R64.from_f64 (F64.mk 0x8000000000000000))
      (R64.from_f64 (F64.mk 0)) = false
  ∧ R32.beq (R32.from_f32 (F32.mk 0x80000000))
      (R32.from_f32 (F32.mk 0)) = false := by
  refine ⟨?_, ?_, ?_, ?_, by decide, by decide⟩
  · intro x y
    exact bits_beq_iff x.bits y.bits
  · intro x y
    exact bits_beq_iff x.bits y.bits
  · intro v
    exact (bits_beq_iff _ _).2 rfl
  · intro v
    exact (bits_beq_iff _ _).2 rfl

/-- C4 counterexample: at width 16 the product of two `N16` values is the
full 32-bit product (an `N32`), not the wrapping product re-encoded at width
16 — `256 * 256` gives `65536`, not `0`; and at width 8 the unchecked native
product faults on overflow instead of wrapping — `16 * 16` panics. -/
theorem unsigned_mul_not_wrapping :
    (N16.mul (N16.from_u16 256) (N16.from_u16 256)).to_u32 ≠ (256 * 256) % 2 ^ 16
  ∧ N8.mul (N8.from_u8 16) (N8.from_u8 16) = Except.error Fault.Overflow := by
  constructor
  · decide
  · rfl

/-- C4 amended: only the 32- and 64-bit unsigned multiplications wrap modulo
`2^W` at the same width (they use `wrapping_mul`); width 16 returns the full
product widened to 32 bits, and width 8 computes the unchecked native
product, which faults on overflow under checked arithmetic and returns the
exact product otherwise. -/
theorem unsigned_mul_amended :
    (∀ a b : Nat, a < 2 ^ 32 → b < 2 ^ 32 →
      (N32.mul (N32.from_u32 a) (N32.from_u32 b)).to_u32 = (a * b) % 2 ^ 32)
  ∧ (∀ a b : Nat, a < 2 ^ 64 → b < 2 ^ 64 →
      (N64.mul (N64.from_u64 a) (N64.from_u64 b)).to_u64 = (a * b) % 2 ^ 64)
  ∧ (∀ a b : Nat, a < 2 ^ 16 → b < 2 ^ 16 →
      (N16.mul (N16.from_u16 a) (N16.from_u16 b)).to_u32 = a * b)
  ∧ (∀ a b : Nat, a < 2 ^ 8 → b < 2 ^ 8 →
      N8.mul (N8.from_u8 a) (N8.from_u8 b)
        = if 2 ^ 8 ≤ a * b then Except.error Fault.Overflow
          else Except.ok (N8.from_u8 (a * b))) := by
  refine ⟨?_, ?_, ?_, ?_⟩
  · intro a b ha hb
    simp only [N32.mul, N32.to_u32, N32.from_u32, bits_val_nat_to_bits]
    rw [Nat.mod_eq_of_lt ha, Nat.mod_eq_of_lt hb]
    exact Nat.mod_mod_of_dvd _ dvd_rfl
  · intro a b ha hb
    simp only [N64.mul, N64.to_u64, N64.from_u64, bits_val_nat_to_bits]
    rw [Nat.mod_eq_of_lt ha, Nat.mod_eq_of_lt hb]
    exact Nat.mod_mod_of_dvd _ dvd_rfl
  · intro a b ha hb
    have hab : a * b < 2 ^ 32 :=
      lt_of_le_of_lt
        (Nat.mul_le_mul (by omega : a ≤ 65535) (by omega : b ≤ 65535))
        (by norm_num)
    simp only [N16.mul, N16.to_u16, N16.from_u16, N32.to_u32, N32.from_u32,
      bits_val_nat_to_bits]
    rw [Nat.mod_eq_of_lt ha, Nat.mod_eq_of_lt hb]
    exact Nat.mod_eq_of_lt hab
  · intro a b ha hb
    simp only [N8.mul, N8.to_u8, N8.from_u8, bits_val_nat_to_bits]
    rw [Nat.mod_eq_of_lt ha, Nat.mod_eq_of_lt hb]
    norm_num

/-- C4 amended witness: `2^31 * 2` wraps to 0 at width 32, `300 * 300`
widens exactly at width 16, and `16 * 16` faults at width 8. -/
theorem unsigned_mul_amended_witness :
    (2 ^ 31 < 2 ^ 32 ∧ 2 < 2 ^ 32 ∧
      (N32.mul (N32.from_u32 (2 ^ 31)) (N32.from_u32 2)).to_u32
        = (2 ^ 31 * 2) % 2 ^ 32)
  ∧ (300 < 2 ^ 16 ∧
      (N16.mul (N16.from_u16 300) (N16.from_u16 300)).to_u32 = 300 * 300)
  ∧ (16 < 2 ^ 8 ∧
      N8.mul (N8.from_u8 16) (N8.from_u8 16)
        = if 2 ^ 8 ≤ 16 * 16 then Except.error Fault.Overflow
          else Except.ok (N8.from_u8 (16 * 16))) :=
  ⟨⟨by norm_num, by norm_num,
     unsigned_mul_amended.1 (2 ^ 31) 2 (by norm_num) (by norm_num)⟩,
   ⟨by norm_num,
     unsigned_mul_amended.2.2.1 300 300 (by norm_num) (by norm_num)⟩,
   ⟨by norm_num,
     unsigned_mul_amended.2.2.2 16 16 (by norm_num) (by norm_num)⟩⟩

/-- C5 counterexample: `N8` shifting delegates to the native `u8` shift, so
shifting `1` left by 8 faults with a shift overflow instead of returning the
all-Zero value. -/
theorem n8_shift_saturation_fails :
    N8.shl (N8.from_u8 1) 8 = Except.error Fault.ShiftOverflow
  ∧ N8.shl (N8.from_u8 1) 8 ≠ Except.ok (N8.from_u8 0) := by
  refine ⟨rfl, fun h => ?_⟩
  exact Except.noConfusion h

/-- Reading an index below 8 out of an 8-entry generated table. -/
theorem bitAt_range_map (f : Nat → Bit) (i : Nat) (h : i < 8) :
    bitAt ((List.range 8).map f) i = f i := by
  unfold bitAt
  rw [List.getD_eq_getElem _ _ (by simpa using h)]
  rw [List.getElem_map, List.getElem_range]

/-- C5 amended: the `Byte` container's shifts saturate to the all-Zero byte
for any amount of 8 or more and Zero-fill the vacated positions for smaller
amounts, while the `N8` shifts delegate to the native shift, which faults
for any amount of 8 or more instead of saturating. -/
theorem shift_saturation_amended :
    (∀ (x : Byte) (k : Nat), 8 ≤ k →
      Byte.shl x k = ⟨List.replicate 8 Bit.Zero⟩
      ∧ Byte.shr x k = ⟨List.replicate 8 Bit.Zero⟩)
  ∧ (∀ (x : Byte) (k : Nat), k < 8 →
      (∀ i, i < k → bitAt (Byte.shl x k).bits i = Bit.Zero)
      ∧ (∀ i, 8 - k ≤ i → i < 8 → bitAt (Byte.shr x k).bits i = Bit.Zero))
  ∧ (∀ (x : N8) (k : Nat), 8 ≤ k →
      N8.shl x k = Except.error Fault.ShiftOverflow
      ∧ N8.shr x k = Except.error Fault.ShiftOverflow) := by
  refine ⟨?_, ?_, ?_⟩
  · intro x k h
    constructor <;> simp [Byte.shl, Byte.shr, if_pos h]
  · intro x k hk
    have h8 : ¬ 8 ≤ k := by omega
    constructor
    · intro i hi
      simp only [Byte.shl, if_neg h8]
      rw [bitAt_range_map _ _ (by omega)]
      rw [if_neg (by omega)]
    · intro i hi1 hi2
      simp only [Byte.shr, if_neg h8]
      rw [bitAt_range_map _ _ hi2]
      rw [if_neg (by omega)]
  · intro x k h
    constructor <;> simp [N8.shl, N8.shr, if_pos h]

/-- C5 amended witness: shifting a concrete byte by 9 saturates to Zero,
shifting by 3 leaves bit 1 Zero, and the `N8` shift by 8 faults. -/
theorem shift_saturation_amended_witness :
    (8 ≤ 9 ∧ Byte.shl ⟨List.replicate 8 Bit.One⟩ 9 = ⟨List.replicate 8 Bit.Zero⟩)
  ∧ (3 < 8 ∧ 1 < 3 ∧ bitAt (Byte.shl ⟨List.replicate 8 Bit.One⟩ 3).bits 1 = Bit.Zero)
  ∧ (8 ≤ 8 ∧ N8.shl (N8.from_u8 7) 8 = Except.error Fault.ShiftOverflow) :=
  ⟨⟨by decide, (shift_saturation_amended.1 ⟨List.replicate 8 Bit.One⟩ 9 (by decide)).1⟩,
   ⟨by decide, by decide,
     (shift_saturation_amended.2.1 ⟨List.replicate 8 Bit.One⟩ 3 (by decide)).1 1
       (by decide)⟩,
   ⟨by decide, (shift_saturation_amended.2.2 (N8.from_u8 7) 8 (by decide)).1⟩⟩

theorem rotl8_mod (v k : Nat) : rotl8 v k = rotl8 v (k % 8) := by
  have h : k % 8 % 8 = k % 8 := by omega
  simp only [rotl8, h]

theorem rotr8_mod (v k : Nat) : rotr8 v k = rotr8 v (k % 8) := by
  have h : k % 8 % 8 = k % 8 := by omega
  simp only [rotr8, h]

set_option maxRecDepth 100000 in
theorem rot8_inverse_aux :
    ∀ (v : Fin 256) (r : Fin 8), rotr8 (rotl8 v.val r.val) r.val = v.val := by
  decide

theorem n8_from_to_u8 (x : N8) (h : x.bits.length = 8) :
    N8.from_u8 x.to_u8 = x := by
  obtain ⟨l⟩ := x
  simp only [N8.from_u8, N8.to_u8, N8.mk.injEq]
  simp only [List.length_cons] at h
  rw [← h, nat_to_bits_bits_val]

theorem n8_rotate_composition (x : N8) (h : x.bits.length = 8) (k : Nat) :
    N8.rotate_right (N8.rotate_left x k) k = x := by
  have hv : x.to_u8 < 256 := by
    have := bits_val_lt x.bits
    rw [h] at this
    exact this
  have hround : ∀ w : Nat, (N8.from_u8 w).to_u8 = w % 256 := by
    intro w
    simp [N8.from_u8, N8.to_u8, bits_val_nat_to_bits]
  have hlt : rotl8 x.to_u8 k < 256 := Nat.mod_lt _ (by omega)
  unfold N8.rotate_right N8.rotate_left
  rw [hround, Nat.mod_eq_of_lt hlt, rotl8_mod, rotr8_mod,
    rot8_inverse_aux ⟨x.to_u8, hv⟩ ⟨k % 8, by omega⟩]
  exact n8_from_to_u8 x h

theorem byte_rotate_composition (x : Byte) (h : x.bits.length = 8) (k : Nat) :
    Byte.rotate_right (Byte.rotate_left x k) k = x := by
  obtain ⟨l⟩ := x
  simp only at h
  rcases l with _ | ⟨b0, _ | ⟨b1, _ | ⟨b2, _ | ⟨b3, _ | ⟨b4, _ | ⟨b5, _ |
    ⟨b6, _ | ⟨b7, _ | ⟨b8, rest⟩⟩⟩⟩⟩⟩⟩⟩⟩ <;>
    simp only [List.length_cons, List.length_nil] at h <;> try omega
  simp only [Byte.rotate_left, Byte.rotate_right]
  generalize hr : k % 8 = r
  have hrlt : r < 8 := by omega
  interval_cases r <;> rfl

theorem byte_rotate_left_mod (x : Byte) (k : Nat) :
    Byte.rotate_left x k = Byte.rotate_left x (k % 8) := by
  have h : k % 8 % 8 = k % 8 := by omega
  simp only [Byte.rotate_left, h]

theorem byte_rotate_right_mod (x : Byte) (k : Nat) :
    Byte.rotate_right x k = Byte.rotate_right x (k % 8) := by
  have h : k % 8 % 8 = k % 8 := by omega
  simp only [Byte.rotate_right, h]

/-- C9: on both 8-bit bit-vector types, rotating left then right by the same
amount restores the value, and any rotation amount acts like its remainder
modulo the width. -/
theorem rotate_composition_and_mod :
    (∀ x : Byte, x.bits.length = 8 → ∀ k : Nat,
      Byte.rotate_right (Byte.rotate_left x k) k = x
      ∧ Byte.rotate_left x k = Byte.rotate_left x (k % 8)
      ∧ Byte.rotate_right x k = Byte.rotate_right x (k % 8))
  ∧ (∀ x : N8, x.bits.length = 8 → ∀ k : Nat,
      N8.rotate_right (N8.rotate_left x k) k = x
      ∧ N8.rotate_left x k = N8.rotate_left x (k % 8)
      ∧ N8.rotate_right x k = N8.rotate_right x (k % 8)) := by
  constructor
  · intro x h k
    exact ⟨byte_rotate_composition x h k, byte_rotate_left_mod x k,
      byte_rotate_right_mod x k⟩
  · intro x h k
    refine ⟨n8_rotate_composition x h k, ?_, ?_⟩
    · unfold N8.rotate_left
      rw [rotl8_mod]
    · unfold N8.rotate_right
      rw [rotr8_mod]

/-- C9 witness: both rotation identities at a concrete byte pattern and the
amount 11 (which acts like 3). -/
theorem rotate_composition_and_mod_witness :
    ((Byte.mk [Bit.One, Bit.Zero, Bit.One, Bit.Zero, Bit.Zero, Bit.One,
        Bit.One, Bit.Zero]).bits.length = 8 ∧
      Byte.rotate_right
        (Byte.rotate_left (Byte.mk [Bit.One, Bit.Zero, Bit.One, Bit.Zero,
          Bit.Zero, Bit.One, Bit.One, Bit.Zero]) 11) 11
        = Byte.mk [Bit.One, Bit.Zero, Bit.One, Bit.Zero, Bit.Zero, Bit.One,
            Bit.One, Bit.Zero])
  ∧ ((N8.from_u8 202).bits.length = 8 ∧
      N8.rotate_right (N8.rotate_left (N8.from_u8 202) 11) 11
        = N8.from_u8 202
      ∧ N8.rotate_left (N8.from_u8 202) 11
        = N8.rotate_left (N8.from_u8 202) (11 % 8)) :=
  ⟨⟨by decide,
     ((rotate_composition_and_mod.1 _ (by decide)) 11).1⟩,
   ⟨by decide,
     ((rotate_composition_and_mod.2 (N8.from_u8 202) (by decide)) 11).1,
     ((rotate_composition_and_mod.2 (N8.from_u8 202) (by decide)) 11).2.1⟩⟩

theorem set_append_length (front : List Bit) :
    ∀ (b d : Bit) (back : List Bit),
      (front ++ b :: back).set front.length d = front ++ d :: back := by
  induction front with
  | nil => intro b d back; rfl
  | cons a front ih =>
    intro b d back
    show a :: (front ++ b :: back).set front.length d = a :: (front ++ d :: back)
    exact congrArg (List.cons a) (ih b d back)

theorem write_seq_append (ds : List Bit) :
    ∀ (front back : List Bit), ds.length ≤ back.length →
      write_seq (front ++ back) front.length ds
        = front ++ ds ++ List.drop ds.length back := by
  induction ds with
  | nil => intro front back _; simp [write_seq]
  | cons d ds ih =>
    intro front back h
    cases back with
    | nil => simp at h
    | cons b back =>
      rw [show write_seq (front ++ b :: back) front.length (d :: ds)
            = write_seq ((front ++ b :: back).set front.length d)
                (front.length + 1) ds from rfl]
      rw [set_append_length]
      have h' : ds.length ≤ back.length := by simpa using h
      have hih := ih (front ++ [d]) back h'
      rw [show (front ++ [d]).length = front.length + 1 from by simp] at hih
      rw [show (front ++ [d]) ++ back = front ++ d :: back from by simp] at hih
      rw [hih]
      simp [List.append_assoc]

theorem sbfc_ok (cs : List Char) :
    ∀ (bits : List Bit) (i : Nat), (∀ c ∈ cs, c = '0' ∨ c = '1') →
      set_bits_from_chars bits i cs
        = Except.ok (write_seq bits i (List.map digit_bit cs)) := by
  induction cs with
  | nil => intro bits i _; rfl
  | cons c cs ih =>
    intro bits i h
    have hcs : ∀ c ∈ cs, c = '0' ∨ c = '1' := fun c hc => h c (by simp [hc])
    rcases h c (by simp) with hc | hc <;> subst hc
    · rw [show set_bits_from_chars bits i ('0' :: cs)
            = set_bits_from_chars (bits.set i Bit.Zero) (i + 1) cs from rfl,
        ih _ _ hcs]
      rfl
    · rw [show set_bits_from_chars bits i ('1' :: cs)
            = set_bits_from_chars (bits.set i Bit.One) (i + 1) cs from rfl,
        ih _ _ hcs]
      rfl

theorem sbfc_err (cs : List Char) :
    ∀ (bits : List Bit) (i : Nat), (∃ c ∈ cs, ¬(c = '0' ∨ c = '1')) →
      set_bits_from_chars bits i cs = Except.error () := by
  induction cs with
  | nil => intro bits i h; simp at h
  | cons c cs ih =>
    intro bits i h
    by_cases hc0 : c = '0'
    · subst hc0
      rw [show set_bits_from_chars bits i ('0' :: cs)
            = set_bits_from_chars (bits.set i Bit.Zero) (i + 1) cs from rfl]
      apply ih
      rcases h with ⟨d, hd, hinv⟩
      rcases List.mem_cons.1 hd with rfl | hd'
      · exact absurd (Or.inl rfl) hinv
      · exact ⟨d, hd', hinv⟩
    · by_cases hc1 : c = '1'
      · subst hc1
        rw [show set_bits_from_chars bits i ('1' :: cs)
              = set_bits_from_chars (bits.set i Bit.One) (i + 1) cs from rfl]
        apply ih
        rcases h with ⟨d, hd, hinv⟩
        rcases List.mem_cons.1 hd with rfl | hd'
        · exact absurd (Or.inr rfl) hinv
        · exact ⟨d, hd', hinv⟩
      · rw [show set_bits_from_chars bits i (c :: cs)
              = (if c = '0'
                  then set_bits_from_chars (bits.set i Bit.Zero) (i + 1) cs
                  else if c = '1'
                    then set_bits_from_chars (bits.set i Bit.One) (i + 1) cs
                    else Except.error ()) from rfl]
        rw [if_neg hc0, if_neg hc1]

theorem bits_val_append_singleton (l : List Bit) (b : Bit) :
    bits_val (l ++ [b]) = bits_val l + b.toNat * 2 ^ l.length := by
  induction l with
  | nil => simp [bits_val]
  | cons a l ih =>
    show a.toNat + 2 * bits_val (l ++ [b])
      = a.toNat + 2 * bits_val l + b.toNat * 2 ^ (l.length + 1)
    rw [ih, pow_succ]
    ring

theorem bits_val_replicate_zero (k : Nat) :
    bits_val (List.replicate k Bit.Zero) = 0 := by
  induction k with
  | zero => rfl
  | succ k ih => simp [List.replicate_succ, bits_val, ih, Bit.toNat]

theorem bits_val_append_zeros (l : List Bit) (k : Nat) :
    bits_val (l ++ List.replicate k Bit.Zero) = bits_val l := by
  induction l with
  | nil => simpa using bits_val_replicate_zero k
  | cons a l ih => simp [bits_val, ih]

theorem msb_foldl_acc (ds : List Bit) :
    ∀ a : Nat, List.foldl (fun x b => 2 * x + b.toNat) a ds
      = a * 2 ^ ds.length + List.foldl (fun x b => 2 * x + b.toNat) 0 ds := by
  induction ds with
  | nil => intro a; simp
  | cons d ds ih =>
    intro a
    simp only [List.foldl_cons, List.length_cons]
    rw [ih (2 * a + d.toNat), ih (2 * 0 + d.toNat), pow_succ]
    ring

theorem bits_val_reverse (ds : List Bit) :
    bits_val ds.reverse = List.foldl (fun x b => 2 * x + b.toNat) 0 ds := by
  induction ds with
  | nil => rfl
  | cons d ds ih =>
    simp only [List.reverse_cons, bits_val_append_singleton, ih,
      List.foldl_cons, List.length_reverse]
    rw [msb_foldl_acc ds (2 * 0 + d.toNat)]
    ring

/-- C8: a string of at most 8 characters, all `'0'` or `'1'`, parses
successfully; the reversed digits occupy the low bits, the unfilled
high-order bits stay Zero, and the parsed value is the string's binary
value, most-significant character first; a longer string, or one holding
any other character, fails with the parse error. -/
theorem n8_from_str_spec (s : List Char) :
    ((s.length ≤ 8 ∧ ∀ c ∈ s, c = '0' ∨ c = '1') →
      ∃ x : N8, N8.from_str s = Except.ok x
        ∧ x.bits = List.map digit_bit s.reverse
            ++ List.replicate (8 - s.length) Bit.Zero
        ∧ x.to_u8 = str_bin_val s)
  ∧ ((8 < s.length ∨ ∃ c ∈ s, ¬(c = '0' ∨ c = '1')) →
      N8.from_str s = Except.error ()) := by
  constructor
  · rintro ⟨h1, h2⟩
    have h2' : ∀ c ∈ s.reverse, c = '0' ∨ c = '1' := by
      intro c hc
      exact h2 c (List.mem_reverse.1 hc)
    have hok := sbfc_ok s.reverse (List.replicate 8 Bit.Zero) 0 h2'
    have hlen : (List.map digit_bit s.reverse).length
        ≤ (List.replicate 8 Bit.Zero).length := by
      simp
      omega
    have hw := write_seq_append (List.map digit_bit s.reverse)
      [] (List.replicate 8 Bit.Zero) hlen
    simp only [List.nil_append, List.length_nil, List.drop_replicate,
      List.length_map, List.length_reverse] at hw
    refine ⟨⟨List.map digit_bit s.reverse
        ++ List.replicate (8 - s.length) Bit.Zero⟩, ?_, rfl, ?_⟩
    · unfold N8.from_str
      rw [if_neg (by omega), hok, hw]
    · simp only [N8.to_u8, bits_val_append_zeros, List.map_reverse,
        bits_val_reverse, List.foldl_map]
      rfl
  · rintro (h | ⟨c, hc, hinv⟩)
    · unfold N8.from_str
      rw [if_pos h]
    · by_cases hlen : 8 < s.length
      · unfold N8.from_str
        rw [if_pos hlen]
      · unfold N8.from_str
        rw [if_neg hlen,
          sbfc_err s.reverse _ 0 ⟨c, List.mem_reverse.2 hc, hinv⟩]

/-- C8 witness: the string `101` parses to the value 5. -/
theorem n8_from_str_spec_witness :
    (['1', '0', '1'].length ≤ 8 ∧ ∀ c ∈ ['1', '0', '1'], c = '0' ∨ c = '1')
  ∧ ∃ x : N8, N8.from_str ['1', '0', '1'] = Except.ok x
      ∧ x.bits = List.map digit_bit ['1', '0', '1'].reverse
          ++ List.replicate (8 - ['1', '0', '1'].length) Bit.Zero
      ∧ x.to_u8 = str_bin_val ['1', '0', '1'] :=
  ⟨by decide, (n8_from_str_spec ['1', '0', '1']).1 (by decide)⟩
